import Mathlib

/-!
Verification of the tailwind-class-merger extension core.

The development embeds the core of `src/unnamed/part_000` (the canonical
variant, per the design notes): the token classifier `separateClasses`,
the per-node rewriter of `extractTailwindClasses` (token extraction per
accepted attribute shape, replacement-text construction), the edit
collector with its selection-offset adjustment, and the import-insertion
step `ensureImportStatement`.  JavaScript-specific behaviour is embedded
faithfully: `String.prototype.split(/\s+/)` keeps empty chunks produced
by leading or trailing whitespace, and the per-prefix map is an
insertion-ordered association list (JS object string keys enumerate in
insertion order).
-/

namespace TailwindMerger

/-- The character class of the JS regex `\s` (whitespace), as matched by
`split(/\s+/)` in `separateClasses` / `extractTailwindClasses`. -/
def isWs (c : Char) : Bool :=
  c = ' ' || c = '\t' || c = '\n' || c = '\r' || c = '\x0b' || c = '\x0c' ||
  c = '\u00A0' || c = '\u1680' || ('\u2000' ≤ c && c ≤ '\u200A') ||
  c = '\u2028' || c = '\u2029' || c = '\u202F' || c = '\u205F' ||
  c = '\u3000' || c = '\uFEFF'

/-- JS `String.prototype.split(/\s+/)` over a character list: the chunks
between maximal whitespace runs.  As in JS, a leading or trailing whitespace
run produces an empty chunk, and the empty string splits to `[""]`.  A
whitespace character opens a new empty chunk exactly when it is not the
continuation of a whitespace run. -/
def startsWithWs : List Char → Bool
  | [] => false
  | d :: _ => isWs d

def splitWsChars : List Char → List (List Char)
  | [] => [[]]
  | c :: rest =>
    if isWs c then
      if startsWithWs rest then splitWsChars rest else [] :: splitWsChars rest
    else
      match splitWsChars rest with
      | t :: ts => (c :: t) :: ts
      | [] => [[c]]

/-- `s.split(/\s+/)` on a string, the form used by the source. -/
def jsSplitWs (s : String) : List String :=
  (splitWsChars s.data).map (fun cs => String.mk cs)

/-- JS `Array.prototype.join(" ")`. -/
def spaceJoin : List String → String
  | [] => ""
  | [s] => s
  | s :: rest => s ++ " " ++ spaceJoin rest

/-- The fixed ordered prefix table of `separateClasses`. -/
def mediaPrefixes : List String :=
  ["mobile:", "tablet:", "desktop:", "sm:", "md:", "lg:", "xl:", "2xl:"]

/-- `mediaPrefixes.find((p) => cls.startsWith(p))`; `startsWith` is prefix
matching on the character sequences. -/
def findPrefix (cls : String) : Option String :=
  mediaPrefixes.find? (fun p => p.data.isPrefixOf cls.data)

/-- `mediaClassesMap[prefix].push(cls)`, creating the bucket when absent:
an in-place update of the insertion-ordered map, appending a new key at
the end when no entry exists. -/
def addToBucket : List (String × List String) → String → String →
    List (String × List String)
  | [], p, c => [(p, [c])]
  | (q, b) :: rest, p, c =>
    if q = p then (q, b ++ [c]) :: rest else (q, b) :: addToBucket rest p c

/-- The classifier loop of `separateClasses` (part_000 variant), with the
base-class and per-prefix accumulators made explicit. -/
def sepAux : List String → List String → List (String × List String) →
    List String × List (String × List String)
  | [], base, m => (base, m)
  | c :: rest, base, m =>
    match findPrefix c with
    | some p => sepAux rest base (addToBucket m p c)
    | none => sepAux rest (base ++ [c]) m

/-- `separateClasses` of part_000: token list to base classes plus the
insertion-ordered prefix-bucket map. -/
def separateClasses (classNames : List String) :
    List String × List (String × List String) :=
  sepAux classNames [] []

/-- Wrap a group text in double quotes, as the rewriter's template does. -/
def quoteStr (s : String) : String := "\"" ++ s ++ "\""

/-- The `classParts` array built by `extractTailwindClasses`: the quoted
base group when non-empty, then the quoted text of each non-empty prefix
bucket in map order. -/
def classParts (baseClasses : List String)
    (mediaClassesMap : List (String × List String)) : List String :=
  (if baseClasses.length > 0 then [quoteStr (spaceJoin baseClasses)] else []) ++
    mediaClassesMap.filterMap
      (fun pb => if pb.2.length > 0 then some (quoteStr (spaceJoin pb.2)) else none)

/-- The `newClassName` template literal of `extractTailwindClasses`. -/
def renderParts (parts : List String) : String :=
  "\x7btwJoin(\n        " ++ String.intercalate ",\n        " parts ++ "\n      )\x7d"

/-- The per-token-list tail of the rewrite loop: classify, skip when the
prefix-bucket map is empty, otherwise build the replacement text. -/
def rewriteTokens (classNames : List String) : Option String :=
  match separateClasses classNames with
  | (b, m) => if m.isEmpty then none else some (renderParts (classParts b m))

/-- Specification-side helper: the distinct elements of a list in order of
first occurrence. -/
def firstOccurrences : List String → List String
  | [] => []
  | x :: xs => x :: firstOccurrences (xs.filter (fun y => !(y == x)))
termination_by l => l.length
decreasing_by
  simp only [List.length_cons]
  exact Nat.lt_succ_of_le (List.length_filter_le _ xs)

/-- Specification-side helper: the tokens of `cls` carrying prefix `p`, in
input order. -/
def bucketOf (classNames : List String) (p : String) : List String :=
  classNames.filter (fun c => findPrefix c == some p)

/-- An argument of a call-expression initializer: a string literal (with its
cooked text) or anything else. -/
inductive CallArg where
  | lit (s : String)
  | nonLit
deriving DecidableEq, Repr

/-- The value of a `className` attribute as the scanner's shape dispatch sees
it: `className="..."`, `className=\x7b"..."\x7d`, `className=\x7bf(...)\x7d`,
or any unsupported initializer. -/
inductive AttrValue where
  | strLit (s : String)
  | bracedStr (s : String)
  | call (fn : String) (args : List CallArg)
  | unsupported
deriving DecidableEq, Repr

/-- Collect the cooked texts of a call's arguments when every argument is a
string literal (`canProcess` stays true), `none` otherwise. -/
def argLits : List CallArg → Option (List String)
  | [] => some []
  | .lit s :: rest => (argLits rest).map (fun ss => s :: ss)
  | .nonLit :: _ => none

/-- The token-extraction arm of the rewrite loop: split a bare or braced
string literal, or concatenate the splits of a `twJoin` call's all-literal
arguments; `none` on every skipped (`continue`) shape. -/
def extractTokens : AttrValue → Option (List String)
  | .strLit s => some (jsSplitWs s)
  | .bracedStr s => some (jsSplitWs s)
  | .call fn args =>
    if fn = "twJoin" then
      (argLits args).map (fun ss => (ss.map jsSplitWs).flatten)
    else
      none
  | .unsupported => none

/-- The rewriter for one candidate value: extracted tokens to replacement
text, `none` when the shape is skipped or the prefix-bucket map is empty. -/
def rewriteValue (v : AttrValue) : Option String :=
  (extractTokens v).bind rewriteTokens

/-- The unquoted group texts of the replacement, in argument order: these are
the cooked texts the emitted string-literal arguments parse back to. -/
def groupTexts (baseClasses : List String)
    (mediaClassesMap : List (String × List String)) : List String :=
  (if baseClasses.length > 0 then [spaceJoin baseClasses] else []) ++
    mediaClassesMap.filterMap
      (fun pb => if pb.2.length > 0 then some (spaceJoin pb.2) else none)

/-- The rewriter at group level: the argument texts of the emitted `twJoin`
call, `none` when no edit is produced. -/
def rewriteGroups (v : AttrValue) : Option (List String) :=
  (extractTokens v).bind fun classNames =>
    match separateClasses classNames with
    | (b, m) => if m.isEmpty then none else some (groupTexts b m)

/-- One candidate `className` attribute: its value span relative to the
scanned text, and its initializer shape. -/
structure Node where
  start : Nat
  stop : Nat
  value : AttrValue
deriving DecidableEq, Repr

/-- A workspace edit: a replacement of a document span, or an insertion at a
document offset. -/
inductive Edit where
  | replace (start stop : Nat) (text : String)
  | insert (pos : Nat) (text : String)
deriving DecidableEq, Repr

/-- The `offset` the command computes before parsing: the selection's start
offset, or `0` when the whole document is processed. -/
def scanOffset : Option (Nat × Nat) → Nat
  | some se => se.1
  | none => 0

/-- The rewrite loop over all candidate nodes: one replace edit per node the
rewriter changes, its span shifted by the scan offset. -/
def processBatch (nodes : List Node) (offset : Nat) : List Edit :=
  nodes.filterMap fun n =>
    (rewriteValue n.value).map fun txt =>
      Edit.replace (n.start + offset) (n.stop + offset) txt

/-- The canonical import line of `ensureImportStatement`. -/
def importStatement : String := "import { twJoin } from \"tailwind-merge\";"

/-- JS `String.prototype.includes`: plain substring containment. -/
def strIncludes (hay sub : String) : Bool :=
  decide (sub.data <:+: hay.data)

/-- `ensureImportStatement`: append one insertion at document offset 0 with
the import line plus a newline, unless the line already occurs in the full
document text. -/
def ensureImportStatement (docText : String) (batch : List Edit) : List Edit :=
  if strIncludes docText importStatement then batch
  else batch ++ [Edit.insert 0 (importStatement ++ "\n")]

/-- The collector's tail: the import check runs only when the batch is
non-empty (`workspaceEdit.size > 0`). -/
def collectFinal (docText : String) (batch : List Edit) : List Edit :=
  if batch.length > 0 then ensureImportStatement docText batch else batch

/-- What one command invocation does at the host boundary: hand a finished
batch to the applier, or funnel a failure into one error message. -/
inductive Outcome where
  | applied (edits : List Edit)
  | reported (msg : String)
deriving DecidableEq, Repr

/-- The message prefix of the single `showErrorMessage` call. -/
def errorPrefix : String := "An error occurred while extracting Tailwind classes: "

/-- The command body: everything inside the `try` is modelled as an
`Except`-valued parse (the only failing step) followed by the total rewrite
and collection passes; the `catch` turns the failure into one report. -/
def runCommand (parseResult : Except String (List Node))
    (selection : Option (Nat × Nat)) (docText : String) : Outcome :=
  match parseResult with
  | .error e => .reported (errorPrefix ++ e)
  | .ok nodes =>
    .applied (collectFinal docText (processBatch nodes (scanOffset selection)))

/-- Re-parsing the emitted replacement text yields a `twJoin` call whose
arguments are string literals with the group texts. -/
def reparse (groups : List String) : AttrValue :=
  .call "twJoin" (groups.map .lit)

/-- One full pipeline pass at document level: every rewritten attribute value
becomes the emitted call expression, every other node is left unchanged. -/
def stepDoc (doc : List AttrValue) : List AttrValue :=
  doc.map fun v =>
    match rewriteGroups v with
    | some gs => reparse gs
    | none => v

/-- The replacement texts one pass emits, in traversal order. -/
def docEdits (doc : List AttrValue) : List String :=
  doc.filterMap rewriteValue

/-- `spaceJoin` at the character level, for reasoning about `jsSplitWs`. -/
def joinChars : List (List Char) → List Char
  | [] => []
  | [t] => t
  | t :: rest => t ++ ' ' :: joinChars rest

theorem spaceJoin_data (ts : List String) :
    (spaceJoin ts).data = joinChars (ts.map String.data) := by
  induction ts with
  | nil => rfl
  | cons t rest ih =>
    cases rest with
    | nil => rfl
    | cons u rest' =>
      simp only [spaceJoin, joinChars, List.map_cons, String.data_append] at ih ⊢
      rw [ih]
      simp

theorem startsWithWs_nil : startsWithWs [] = false := rfl

theorem startsWithWs_cons (d : Char) (l : List Char) :
    startsWithWs (d :: l) = isWs d := rfl

theorem splitWsChars_ne_nil (l : List Char) : splitWsChars l ≠ [] := by
  induction l with
  | nil => simp [splitWsChars]
  | cons c rest ih =>
    by_cases h : isWs c = true
    · by_cases hw : startsWithWs rest = true
      · simpa [splitWsChars, h, hw] using ih
      · simp [splitWsChars, h, hw]
    · rcases hs : splitWsChars rest with _ | ⟨t, ts⟩
      · exact absurd hs ih
      · simp [splitWsChars, h, hs]

/-- Every chunk the splitter produces is whitespace-free. -/
theorem splitWsChars_wsFree (l : List Char) :
    ∀ t ∈ splitWsChars l, ∀ c ∈ t, isWs c = false := by
  induction l with
  | nil =>
    intro t ht c hc
    simp [splitWsChars] at ht
    subst ht
    simp at hc
  | cons c rest ih =>
    intro t ht d hd
    by_cases h : isWs c = true
    · by_cases hw : startsWithWs rest = true
      · rw [show splitWsChars (c :: rest) = splitWsChars rest
            by simp [splitWsChars, h, hw]] at ht
        exact ih t ht d hd
      · rw [show splitWsChars (c :: rest) = [] :: splitWsChars rest
            by simp [splitWsChars, h, hw]] at ht
        rcases List.mem_cons.mp ht with rfl | ht
        · simp at hd
        · exact ih t ht d hd
    · rcases hs : splitWsChars rest with _ | ⟨u, us⟩
      · exact absurd hs (splitWsChars_ne_nil rest)
      · rw [show splitWsChars (c :: rest) = (c :: u) :: us
            by simp [splitWsChars, h, hs]] at ht
        rcases List.mem_cons.mp ht with rfl | ht
        · rcases List.mem_cons.mp hd with rfl | hd
          · simpa using h
          · exact ih u (by simp [hs]) d hd
        · exact ih t (by simp [hs, ht]) d hd

/-- Prepending a whitespace-free word merges it into the first chunk. -/
theorem splitWsChars_append_word (t : List Char) (ht : ∀ c ∈ t, isWs c = false)
    (l : List Char) (k : List Char) (ks : List (List Char))
    (hl : splitWsChars l = k :: ks) :
    splitWsChars (t ++ l) = (t ++ k) :: ks := by
  induction t with
  | nil => simpa using hl
  | cons c cs ih =>
    have hc : isWs c = false := ht c (by simp)
    have hcs : ∀ d ∈ cs, isWs d = false := fun d hd => ht d (by simp [hd])
    have hrec := ih hcs
    simp only [List.cons_append, splitWsChars, hc, Bool.false_eq_true, if_false]
    rw [show cs.append l = cs ++ l from rfl, hrec]

/-- A whitespace-free word splits to itself alone. -/
theorem splitWsChars_word (t : List Char) (ht : ∀ c ∈ t, isWs c = false) :
    splitWsChars t = [t] := by
  have h0 : splitWsChars ([] : List Char) = [] :: [] := by simp [splitWsChars]
  have := splitWsChars_append_word t ht [] [] [] h0
  simpa using this

/-- A whitespace character before text that does not begin with whitespace
opens a fresh empty chunk. -/
theorem splitWsChars_ws_cons (c : Char) (hc : isWs c = true) (m : List Char)
    (hm : startsWithWs m = false) :
    splitWsChars (c :: m) = [] :: splitWsChars m := by
  simp [splitWsChars, hc, hm]

theorem joinChars_head (t : List Char) (rest : List (List Char)) (h1 : t ≠ []) :
    (joinChars (t :: rest)).head? = t.head? := by
  cases t with
  | nil => exact absurd rfl h1
  | cons c cs => cases rest with
    | nil => rfl
    | cons u rest' => simp [joinChars]

/-- Splitting the single-space join of non-empty whitespace-free chunks
recovers exactly those chunks. -/
theorem splitWsChars_joinChars (ts : List (List Char)) (hne : ts ≠ [])
    (h : ∀ t ∈ ts, t ≠ [] ∧ ∀ c ∈ t, isWs c = false) :
    splitWsChars (joinChars ts) = ts := by
  induction ts with
  | nil => exact absurd rfl hne
  | cons t rest ih =>
    cases rest with
    | nil =>
      simp only [joinChars]
      exact splitWsChars_word t (h t (by simp)).2
    | cons u rest' =>
      have hu : u ≠ [] := (h u (by simp)).1
      have hrest : splitWsChars (joinChars (u :: rest')) = u :: rest' :=
        ih (by simp) (fun v hv => h v (by simp [List.mem_cons] at hv ⊢; tauto))
      have hhead : startsWithWs (joinChars (u :: rest')) = false := by
        rcases hj : joinChars (u :: rest') with _ | ⟨d, m⟩
        · rfl
        · have : (joinChars (u :: rest')).head? = u.head? := joinChars_head u rest' hu
          rw [hj] at this
          cases u with
          | nil => exact absurd rfl hu
          | cons e u' =>
            simp at this
            subst this
            simpa [startsWithWs_cons] using (h (d :: u') (by simp)).2 d (by simp)
      have hsp : splitWsChars (' ' :: joinChars (u :: rest')) =
          [] :: (u :: rest') := by
        rw [splitWsChars_ws_cons ' ' (by decide) _ hhead, hrest]
      have := splitWsChars_append_word t (fun c hc => (h t (by simp)).2 c hc)
        (' ' :: joinChars (u :: rest')) [] (u :: rest') hsp
      simpa [joinChars] using this

/-- Only a leading whitespace run can make the first chunk empty, and only a
trailing one can make a later chunk empty: with a whitespace-free last
character every chunk after the first is non-empty, and with whitespace-free
first and last characters every chunk is non-empty. -/
theorem splitWsChars_chunks (l : List Char) :
    ((∀ c, l.getLast? = some c → isWs c = false) →
      ∀ t ∈ (splitWsChars l).tail, t ≠ []) ∧
    (l ≠ [] →
      (∀ c, l.head? = some c → isWs c = false) →
      (∀ c, l.getLast? = some c → isWs c = false) →
      ∀ t ∈ splitWsChars l, t ≠ []) := by
  induction l with
  | nil =>
    constructor
    · intro _ t ht
      simp [splitWsChars] at ht
    · intro h
      exact absurd rfl h
  | cons c rest ih =>
    by_cases h : isWs c = true
    · cases rest with
      | nil =>
        constructor
        · intro hlast
          have := hlast c (by simp)
          rw [h] at this
          exact absurd this (by simp)
        · intro _ hhead
          have := hhead c (by simp)
          rw [h] at this
          exact absurd this (by simp)
      | cons d rest' =>
        have hlast_eq : (c :: d :: rest').getLast? = (d :: rest').getLast? :=
          List.getLast?_cons_cons
        constructor
        · intro hlast
          have hlast' : ∀ e, (d :: rest').getLast? = some e → isWs e = false := by
            intro e he
            exact hlast e (hlast_eq ▸ he)
          by_cases hd : isWs d = true
          · rw [show splitWsChars (c :: d :: rest') = splitWsChars (d :: rest')
                by simp [splitWsChars, h, startsWithWs_cons, hd]]
            intro t ht
            exact ih.1 hlast' t ht
          · rw [show splitWsChars (c :: d :: rest') = [] :: splitWsChars (d :: rest')
                by simp [splitWsChars, h, startsWithWs_cons, hd]]
            intro t ht
            simp only [List.tail_cons] at ht
            exact ih.2 (by simp) (by intro e he; simp at he; subst he; simpa using hd)
              hlast' t ht
        · intro _ hhead
          have := hhead c (by simp)
          rw [h] at this
          exact absurd this (by simp)
    · rcases hs : splitWsChars rest with _ | ⟨u, us⟩
      · exact absurd hs (splitWsChars_ne_nil rest)
      · have hsplit : splitWsChars (c :: rest) = (c :: u) :: us := by
          simp [splitWsChars, h, hs]
        have hP : (∀ e, (c :: rest).getLast? = some e → isWs e = false) →
            ∀ t ∈ (splitWsChars (c :: rest)).tail, t ≠ [] := by
          intro hlast
          rw [hsplit]
          simp only [List.tail_cons]
          cases rest with
          | nil =>
            simp [splitWsChars] at hs
            rcases hs with ⟨rfl, rfl⟩
            intro t ht
            simp at ht
          | cons d rest' =>
            have hlast' : ∀ e, (d :: rest').getLast? = some e → isWs e = false := by
              intro e he
              refine hlast e ?_
              rw [List.getLast?_cons_cons]
              exact he
            intro t ht
            exact ih.1 hlast' t (by simp [hs, ht])
        constructor
        · exact hP
        · intro _ hhead hlast t ht
          rw [hsplit] at ht
          rcases List.mem_cons.mp ht with rfl | ht
          · simp
          · exact hP hlast t (by simp [hsplit, ht])

theorem mem_firstOccurrences (x : String) (l : List String) :
    x ∈ firstOccurrences l ↔ x ∈ l := by
  induction l using firstOccurrences.induct with
  | case1 => simp [firstOccurrences]
  | case2 y ys ih =>
    simp only [firstOccurrences, List.mem_cons, ih, List.mem_filter,
      Bool.not_eq_eq_eq_not, Bool.not_true, beq_eq_false_iff_ne, ne_eq]
    by_cases hxy : x = y <;> simp [hxy]

theorem firstOccurrences_nodup (l : List String) :
    (firstOccurrences l).Nodup := by
  induction l using firstOccurrences.induct with
  | case1 => simp [firstOccurrences]
  | case2 y ys ih =>
    rw [firstOccurrences]
    refine List.nodup_cons.mpr ⟨?_, ih⟩
    intro hy
    rw [mem_firstOccurrences] at hy
    simp at hy

theorem firstOccurrences_snoc (l : List String) (x : String) :
    firstOccurrences (l ++ [x]) =
      if x ∈ l then firstOccurrences l else firstOccurrences l ++ [x] := by
  induction l using firstOccurrences.induct with
  | case1 => simp [firstOccurrences]
  | case2 y ys ih =>
    rw [List.cons_append, firstOccurrences, firstOccurrences]
    by_cases hxy : x = y
    · subst hxy
      simp only [List.filter_append, List.mem_cons, true_or, if_true]
      simp
    · have hfilter : (ys ++ [x]).filter (fun z => !(z == y)) =
          ys.filter (fun z => !(z == y)) ++ [x] := by
        simp [List.filter_append, hxy]
      rw [hfilter, ih]
      by_cases hx : x ∈ ys
      · have : x ∈ ys.filter (fun z => !(z == y)) := by
          simp [List.mem_filter, hx, hxy]
        simp [this, hx, hxy]
      · have : x ∉ ys.filter (fun z => !(z == y)) := by
          simp [List.mem_filter, hx]
        simp [this, hx, hxy]

theorem addToBucket_mem (K : List String) (f : String → List String)
    (p c : String) (hK : K.Nodup) (hp : p ∈ K) :
    addToBucket (K.map (fun q => (q, f q))) p c =
      K.map (fun q => (q, if q = p then f q ++ [c] else f q)) := by
  induction K with
  | nil => simp at hp
  | cons q K' ih =>
    simp only [List.map_cons, addToBucket]
    by_cases hq : q = p
    · subst hq
      rw [if_pos rfl, if_pos rfl]
      have htail : K'.map (fun q' => (q', if q' = q then f q' ++ [c] else f q')) =
          K'.map (fun q' => (q', f q')) := by
        refine List.map_congr_left ?_
        intro q' hq'
        have hne : q' ≠ q := by
          rintro rfl
          exact (List.nodup_cons.mp hK).1 hq'
        simp [hne]
      rw [htail]
    · have hp' : p ∈ K' := by
        rcases List.mem_cons.mp hp with rfl | hp'
        · exact absurd rfl hq
        · exact hp'
      rw [if_neg hq, if_neg hq, ih (List.nodup_cons.mp hK).2 hp']

theorem addToBucket_notMem (m : List (String × List String)) (p c : String)
    (hp : p ∉ m.map Prod.fst) : addToBucket m p c = m ++ [(p, [c])] := by
  induction m with
  | nil => rfl
  | cons qb m' ih =>
    obtain ⟨q, b⟩ := qb
    have hq : q ≠ p := by
      rintro rfl
      exact hp (by simp)
    rw [addToBucket, if_neg hq, ih (fun h => hp (by simp [h]))]
    simp

theorem sepAux_append (l₁ l₂ base : List String)
    (m : List (String × List String)) :
    sepAux (l₁ ++ l₂) base m =
      sepAux l₂ (sepAux l₁ base m).1 (sepAux l₁ base m).2 := by
  induction l₁ generalizing base m with
  | nil => simp [sepAux]
  | cons c rest ih =>
    rw [List.cons_append, sepAux, sepAux]
    cases findPrefix c <;> simp [ih]

theorem separateClasses_snoc (cls : List String) (c : String) :
    separateClasses (cls ++ [c]) =
      match findPrefix c with
      | some p => ((separateClasses cls).1,
          addToBucket (separateClasses cls).2 p c)
      | none => ((separateClasses cls).1 ++ [c], (separateClasses cls).2) := by
  unfold separateClasses
  rw [sepAux_append]
  cases h : findPrefix c <;> simp [sepAux, h]

/-- The base accumulator of the classifier, characterised as a filter. -/
def sepBase (classNames : List String) : List String :=
  classNames.filter (fun c => (findPrefix c).isNone)

/-- The prefix-bucket map of the classifier, characterised: keys in order of
first occurrence, each bucket the in-order sublist of its tokens. -/
def sepMap (classNames : List String) : List (String × List String) :=
  (firstOccurrences (classNames.filterMap findPrefix)).map
    (fun p => (p, bucketOf classNames p))

theorem bucketOf_eq_nil (cls : List String) (p : String)
    (hp : p ∉ cls.filterMap findPrefix) : bucketOf cls p = [] := by
  rw [bucketOf, List.filter_eq_nil_iff]
  intro a ha
  simp only [beq_iff_eq]
  intro hfa
  exact hp (List.mem_filterMap.mpr ⟨a, ha, hfa⟩)

theorem sepMap_keys (cls : List String) :
    (sepMap cls).map Prod.fst = firstOccurrences (cls.filterMap findPrefix) := by
  rw [sepMap, List.map_map]
  exact List.map_id _

/-- Full characterisation of `separateClasses`: the base list is the
order-preserving filter of the unprefixed tokens, and the map lists the
encountered prefixes in first-occurrence order, each with the
order-preserving filter of its tokens. -/
theorem separateClasses_eq (cls : List String) :
    separateClasses cls = (sepBase cls, sepMap cls) := by
  induction cls using List.reverseRecOn with
  | nil => simp [separateClasses, sepAux, sepBase, sepMap, firstOccurrences]
  | append_singleton cls c ih =>
    rw [separateClasses_snoc, ih]
    cases h : findPrefix c with
    | none =>
      have hbase : sepBase (cls ++ [c]) = sepBase cls ++ [c] := by
        rw [sepBase, sepBase, List.filter_append]
        simp [h]
      have hmap : sepMap (cls ++ [c]) = sepMap cls := by
        rw [sepMap, sepMap, List.filterMap_append]
        simp only [List.filterMap_cons, h, List.filterMap_nil, List.append_nil]
        refine List.map_congr_left ?_
        intro p hp
        rw [bucketOf, bucketOf, List.filter_append]
        simp [h]
      simp only [hbase, hmap]
    | some p =>
      have hbase : sepBase (cls ++ [c]) = sepBase cls := by
        rw [sepBase, sepBase, List.filter_append]
        simp [h]
      have hkeys : (cls ++ [c]).filterMap findPrefix =
          cls.filterMap findPrefix ++ [p] := by
        rw [List.filterMap_append]
        simp [h]
      have hbucket : ∀ q, bucketOf (cls ++ [c]) q =
          bucketOf cls q ++ (if q = p then [c] else []) := by
        intro q
        rw [bucketOf, bucketOf, List.filter_append]
        by_cases hq : q = p
        · subst hq
          simp [h]
        · simp [h, List.filter_cons, Ne.symm hq, hq]
      have hmap : sepMap (cls ++ [c]) = addToBucket (sepMap cls) p c := by
        rw [sepMap, hkeys, firstOccurrences_snoc]
        by_cases hmem : p ∈ cls.filterMap findPrefix
        · rw [if_pos hmem]
          have hpK : p ∈ firstOccurrences (cls.filterMap findPrefix) :=
            (mem_firstOccurrences p _).mpr hmem
          rw [sepMap,
            addToBucket_mem _ _ _ c (firstOccurrences_nodup _) hpK]
          refine List.map_congr_left ?_
          intro q hq
          rw [hbucket q]
          by_cases hqp : q = p <;> simp [hqp]
        · rw [if_neg hmem]
          have hpK : p ∉ firstOccurrences (cls.filterMap findPrefix) := by
            rw [mem_firstOccurrences]
            exact hmem
          rw [addToBucket_notMem _ _ _ (by rw [sepMap_keys]; exact hpK)]
          rw [List.map_append]
          have hold : (firstOccurrences (cls.filterMap findPrefix)).map
              (fun q => (q, bucketOf (cls ++ [c]) q)) = sepMap cls := by
            rw [sepMap]
            refine List.map_congr_left ?_
            intro q hq
            rw [hbucket q]
            have hqp : q ≠ p := by
              rintro rfl
              exact hpK hq
            simp [hqp]
          have hnew : ([p] : List String).map
              (fun q => (q, bucketOf (cls ++ [c]) q)) = [(p, [c])] := by
            rw [List.map_cons, List.map_nil, hbucket p, if_pos rfl,
              bucketOf_eq_nil cls p hmem]
            simp
          rw [hold, hnew]
      simp only [hbase, hmap]

theorem addToBucket_flatten (m : List (String × List String)) (p c : String) :
    ((addToBucket m p c).map Prod.snd).flatten.Perm
      ((m.map Prod.snd).flatten ++ [c]) := by
  induction m with
  | nil => simp [addToBucket]
  | cons qb m' ih =>
    obtain ⟨q, b⟩ := qb
    by_cases hq : q = p
    · subst hq
      have hstep : addToBucket ((q, b) :: m') q c = (q, b ++ [c]) :: m' := by
        simp [addToBucket]
      rw [hstep]
      simp only [List.map_cons, List.flatten_cons]
      rw [List.append_assoc, List.append_assoc]
      exact List.Perm.append_left b List.perm_append_comm
    · have hstep : addToBucket ((q, b) :: m') p c =
          (q, b) :: addToBucket m' p c := by
        simp [addToBucket, hq]
      rw [hstep]
      simp only [List.map_cons, List.flatten_cons]
      rw [List.append_assoc]
      exact List.Perm.append_left b ih

/-- Every input token lands in exactly one output list: concatenating the
base list with all buckets is a permutation of the input. -/
theorem separateClasses_perm (cls : List String) :
    ((separateClasses cls).1 ++
      (((separateClasses cls).2.map Prod.snd).flatten)).Perm cls := by
  induction cls using List.reverseRecOn with
  | nil => simp [separateClasses, sepAux]
  | append_singleton cls c ih =>
    rw [separateClasses_snoc]
    cases h : findPrefix c with
    | none =>
      simp only
      refine List.Perm.trans ?_ (ih.append_right [c])
      rw [List.append_assoc, List.append_assoc]
      exact List.Perm.append_left _ List.perm_append_comm
    | some p =>
      simp only
      refine List.Perm.trans ?_ (ih.append_right [c])
      rw [List.append_assoc]
      exact List.Perm.append_left _ (addToBucket_flatten _ p c)

/-- Every bucket in the classifier output is non-empty: a bucket is created
only when a token is inserted into it. -/
theorem separateClasses_bucket_ne_nil (cls : List String) :
    ∀ pb ∈ (separateClasses cls).2, pb.2 ≠ [] := by
  intro pb hpb
  rw [separateClasses_eq] at hpb
  simp only [sepMap, List.mem_map] at hpb
  obtain ⟨p, hp, rfl⟩ := hpb
  rw [mem_firstOccurrences] at hp
  obtain ⟨a, ha, hfa⟩ := List.mem_filterMap.mp hp
  simp only [ne_eq]
  intro hnil
  have : a ∈ bucketOf cls p := by
    rw [bucketOf, List.mem_filter]
    exact ⟨ha, by simp [hfa]⟩
  rw [hnil] at this
  simp at this

/-- Every token in a bucket carries that bucket's prefix. -/
theorem separateClasses_bucket_tokens (cls : List String) :
    ∀ pb ∈ (separateClasses cls).2, ∀ t ∈ pb.2, findPrefix t = some pb.1 := by
  intro pb hpb t ht
  rw [separateClasses_eq] at hpb
  simp only [sepMap, List.mem_map] at hpb
  obtain ⟨p, hp, rfl⟩ := hpb
  simp only at ht
  rw [bucketOf, List.mem_filter] at ht
  simpa using ht.2

/-- Every token in the base list carries no prefix. -/
theorem separateClasses_base_tokens (cls : List String) :
    ∀ t ∈ (separateClasses cls).1, findPrefix t = none := by
  intro t ht
  rw [separateClasses_eq] at ht
  simp only [sepBase, List.mem_filter] at ht
  simpa [Option.isNone_iff_eq_none] using ht.2

/-- `classParts` quotes exactly the group texts. -/
theorem classParts_eq_quote (b : List String)
    (m : List (String × List String)) :
    classParts b m = (groupTexts b m).map quoteStr := by
  rw [classParts, groupTexts, List.map_append]
  have h1 : (if b.length > 0 then [spaceJoin b] else []).map quoteStr =
      (if b.length > 0 then [quoteStr (spaceJoin b)] else []) := by
    by_cases hb : b.length > 0 <;> simp [hb]
  have h2 : ∀ mm : List (String × List String),
      (mm.filterMap
        (fun pb => if pb.2.length > 0 then some (spaceJoin pb.2) else none)).map
          quoteStr =
        mm.filterMap
          (fun pb => if pb.2.length > 0 then some (quoteStr (spaceJoin pb.2))
            else none) := by
    intro mm
    induction mm with
    | nil => rfl
    | cons pb mm' ih =>
      by_cases hl : pb.2.length > 0 <;> simp [List.filterMap_cons, hl, ih]
  rw [h1, h2]

/-- With every bucket non-empty the length guards in `groupTexts` are
vacuous: one group text per bucket, in map order. -/
theorem groupTexts_of_ne_nil (b : List String)
    (m : List (String × List String)) (h : ∀ pb ∈ m, pb.2 ≠ []) :
    groupTexts b m =
      (if b.length > 0 then [spaceJoin b] else []) ++
        m.map (fun pb => spaceJoin pb.2) := by
  rw [groupTexts]
  have h2 : m.filterMap
      (fun pb => if pb.2.length > 0 then some (spaceJoin pb.2) else none) =
        m.map (fun pb => spaceJoin pb.2) := by
    induction m with
    | nil => rfl
    | cons pb mm' ih =>
      have hne : pb.2.length > 0 :=
        List.length_pos.mpr (h pb (by simp))
      rw [List.filterMap_cons, if_pos hne, List.map_cons,
        ih (fun x hx => h x (by simp [hx]))]
  rw [h2]
theorem jsSplitWs_wsFree (s : String) :
    ∀ t ∈ jsSplitWs s, ∀ c ∈ t.data, isWs c = false := by
  intro t ht c hc
  rw [jsSplitWs] at ht
  obtain ⟨cs, hcs, rfl⟩ := List.mem_map.mp ht
  exact splitWsChars_wsFree s.data cs hcs c hc

/-- Splitting the single-space join of non-empty whitespace-free tokens
recovers exactly those tokens. -/
theorem jsSplitWs_spaceJoin (ts : List String) (hne : ts ≠ [])
    (h : ∀ t ∈ ts, t ≠ "" ∧ ∀ c ∈ t.data, isWs c = false) :
    jsSplitWs (spaceJoin ts) = ts := by
  rw [jsSplitWs, spaceJoin_data]
  rw [splitWsChars_joinChars (ts.map String.data)
    (by simpa using hne)
    (by
      intro t ht
      obtain ⟨s, hs, rfl⟩ := List.mem_map.mp ht
      refine ⟨?_, (h s hs).2⟩
      intro hnil
      exact (h s hs).1 (String.ext hnil))]
  rw [List.map_map]
  exact List.map_id _

/-- Tokens extracted from any accepted shape are whitespace-free. -/
theorem extractTokens_wsFree (v : AttrValue) (cls : List String)
    (hv : extractTokens v = some cls) :
    ∀ t ∈ cls, ∀ c ∈ t.data, isWs c = false := by
  cases v with
  | strLit s =>
    simp only [extractTokens, Option.some.injEq] at hv
    subst hv
    exact jsSplitWs_wsFree s
  | bracedStr s =>
    simp only [extractTokens, Option.some.injEq] at hv
    subst hv
    exact jsSplitWs_wsFree s
  | call fn args =>
    simp only [extractTokens] at hv
    by_cases hfn : fn = "twJoin"
    · rw [if_pos hfn] at hv
      obtain ⟨ss, hss, rfl⟩ := Option.map_eq_some'.mp hv
      intro t ht c hc
      obtain ⟨l, hl, htl⟩ := List.mem_flatten.mp ht
      obtain ⟨s, hs, rfl⟩ := List.mem_map.mp hl
      exact jsSplitWs_wsFree s t htl c hc
    · rw [if_neg hfn] at hv
      exact absurd hv (by simp)
  | unsupported => exact absurd hv (by simp [extractTokens])

theorem argLits_map_lit (gs : List String) :
    argLits (gs.map CallArg.lit) = some gs := by
  induction gs with
  | nil => rfl
  | cons g gs' ih => simp [argLits, ih]

theorem extractTokens_reparse (gs : List String) :
    extractTokens (reparse gs) = some ((gs.map jsSplitWs).flatten) := by
  rw [reparse, extractTokens]
  simp [argLits_map_lit]

theorem filterMap_findPrefix_const (b : List String) (p : String)
    (h : ∀ t ∈ b, findPrefix t = some p) :
    b.filterMap findPrefix = b.map (fun _ => p) := by
  induction b with
  | nil => rfl
  | cons t b' ih =>
    rw [List.filterMap_cons, h t (by simp), List.map_cons,
      ih (fun x hx => h x (by simp [hx]))]

theorem mem_block_flatten (m : List (String × List String)) (x : String)
    (hx : x ∈ (m.map (fun pb => pb.2.map (fun _ => pb.1))).flatten) :
    x ∈ m.map Prod.fst := by
  obtain ⟨l, hl, hxl⟩ := List.mem_flatten.mp hx
  obtain ⟨pb, hpb, rfl⟩ := List.mem_map.mp hl
  obtain ⟨_, _, rfl⟩ := List.mem_map.mp hxl
  exact List.mem_map.mpr ⟨pb, hpb, rfl⟩

/-- The first occurrences of a flattened sequence of non-empty
constant blocks with pairwise distinct values are the block values. -/
theorem firstOccurrences_blocks (m : List (String × List String))
    (hne : ∀ pb ∈ m, pb.2 ≠ []) (hkeys : (m.map Prod.fst).Nodup) :
    firstOccurrences ((m.map (fun pb => pb.2.map (fun _ => pb.1))).flatten) =
      m.map Prod.fst := by
  induction m with
  | nil => simp [firstOccurrences]
  | cons pb m' ih =>
    rw [List.map_cons, List.nodup_cons] at hkeys
    obtain ⟨p, b⟩ := pb
    cases b with
    | nil => exact absurd rfl (hne (p, []) (by simp))
    | cons t b'' =>
      simp only [List.map_cons, List.flatten_cons, List.cons_append]
      rw [firstOccurrences]
      have hfilter : ((b''.map (fun _ => p) ++
          (m'.map (fun pb => pb.2.map (fun _ => pb.1))).flatten).filter
            (fun y => !(y == p))) =
          (m'.map (fun pb => pb.2.map (fun _ => pb.1))).flatten := by
        rw [List.filter_append]
        have h1 : (b''.map (fun _ => p)).filter (fun y => !(y == p)) = [] := by
          rw [List.filter_eq_nil_iff]
          intro a ha
          obtain ⟨_, _, rfl⟩ := List.mem_map.mp ha
          simp
        have h2 : ((m'.map (fun pb => pb.2.map (fun _ => pb.1))).flatten).filter
            (fun y => !(y == p)) =
            (m'.map (fun pb => pb.2.map (fun _ => pb.1))).flatten := by
          rw [List.filter_eq_self]
          intro a ha
          have hmem := mem_block_flatten m' a ha
          simp only [Bool.not_eq_eq_eq_not, Bool.not_true, beq_eq_false_iff_ne,
            ne_eq]
          rintro rfl
          exact hkeys.1 hmem
        rw [h1, h2, List.nil_append]
      rw [hfilter]
      rw [ih (fun x hx => hne x (by simp [hx])) hkeys.2]

theorem bucketOf_flatten_blocks (m : List (String × List String))
    (hm : ∀ pb ∈ m, ∀ t ∈ pb.2, findPrefix t = some pb.1)
    (hkeys : (m.map Prod.fst).Nodup) :
    ∀ pb ∈ m, bucketOf ((m.map Prod.snd).flatten) pb.1 = pb.2 := by
  induction m with
  | nil => simp
  | cons qb m' ih =>
    rw [List.map_cons, List.nodup_cons] at hkeys
    have hm' : ∀ pb ∈ m', ∀ t ∈ pb.2, findPrefix t = some pb.1 :=
      fun pb hpb => hm pb (by simp [hpb])
    intro pb hpb
    rcases List.mem_cons.mp hpb with heq | hpb'
    · subst heq
      simp only [List.map_cons, List.flatten_cons]
      rw [bucketOf, List.filter_append]
      have h1 : pb.2.filter (fun c => findPrefix c == some pb.1) = pb.2 := by
        rw [List.filter_eq_self]
        intro a ha
        simp [hm pb (by simp) a ha]
      have h2 : ((m'.map Prod.snd).flatten).filter
          (fun c => findPrefix c == some pb.1) = [] := by
        rw [List.filter_eq_nil_iff]
        intro a ha
        obtain ⟨l, hl, hal⟩ := List.mem_flatten.mp ha
        obtain ⟨pb', hpb', rfl⟩ := List.mem_map.mp hl
        rw [hm' pb' hpb' a hal]
        simp only [beq_iff_eq, Option.some.injEq]
        intro heq
        exact hkeys.1 (heq ▸ List.mem_map.mpr ⟨pb', hpb', rfl⟩)
      rw [h1, h2, List.append_nil]
    · simp only [List.map_cons, List.flatten_cons]
      rw [bucketOf, List.filter_append]
      have h1 : qb.2.filter (fun c => findPrefix c == some pb.1) = [] := by
        rw [List.filter_eq_nil_iff]
        intro a ha
        rw [hm qb (by simp) a ha]
        simp only [beq_iff_eq, Option.some.injEq]
        intro hqp
        refine hkeys.1 ?_
        rw [hqp]
        exact List.mem_map.mpr ⟨pb, hpb', rfl⟩
      have h2 := ih hm' hkeys.2 pb hpb'
      rw [h1, List.nil_append]
      exact h2

/-- Reclassifying the reassembled output of the classifier is the identity:
the base tokens classify back to the base list, and each bucket's tokens
re-create the same bucket in the same position. -/
theorem separateClasses_reassemble (b : List String)
    (m : List (String × List String))
    (hb : ∀ t ∈ b, findPrefix t = none)
    (hm : ∀ pb ∈ m, ∀ t ∈ pb.2, findPrefix t = some pb.1)
    (hne : ∀ pb ∈ m, pb.2 ≠ [])
    (hkeys : (m.map Prod.fst).Nodup) :
    separateClasses (b ++ (m.map Prod.snd).flatten) = (b, m) := by
  rw [separateClasses_eq]
  have hbase : sepBase (b ++ (m.map Prod.snd).flatten) = b := by
    rw [sepBase, List.filter_append]
    have h1 : b.filter (fun c => (findPrefix c).isNone) = b := by
      rw [List.filter_eq_self]
      intro a ha
      simp [hb a ha]
    have h2 : ((m.map Prod.snd).flatten).filter
        (fun c => (findPrefix c).isNone) = [] := by
      rw [List.filter_eq_nil_iff]
      intro a ha
      obtain ⟨l, hl, hal⟩ := List.mem_flatten.mp ha
      obtain ⟨pb, hpb, rfl⟩ := List.mem_map.mp hl
      simp [hm pb hpb a hal]
    rw [h1, h2, List.append_nil]
  have hstream : (b ++ (m.map Prod.snd).flatten).filterMap findPrefix =
      (m.map (fun pb => pb.2.map (fun _ => pb.1))).flatten := by
    rw [List.filterMap_append]
    have h1 : b.filterMap findPrefix = [] := by
      rw [List.filterMap_eq_nil_iff]
      intro a ha
      simp [hb a ha]
    rw [h1, List.nil_append, List.filterMap_flatten, List.map_map]
    congr 1
    refine List.map_congr_left ?_
    intro pb hpb
    exact filterMap_findPrefix_const pb.2 pb.1 (hm pb hpb)
  have hmap : sepMap (b ++ (m.map Prod.snd).flatten) = m := by
    rw [sepMap, hstream, firstOccurrences_blocks m hne hkeys]
    have hbucket : ∀ pb ∈ m,
        bucketOf (b ++ (m.map Prod.snd).flatten) pb.1 = pb.2 := by
      intro pb hpb
      rw [bucketOf, List.filter_append]
      have h1 : b.filter (fun c => findPrefix c == some pb.1) = [] := by
        rw [List.filter_eq_nil_iff]
        intro a ha
        simp [hb a ha]
      rw [h1, List.nil_append]
      exact bucketOf_flatten_blocks m hm hkeys pb hpb
    calc (m.map Prod.fst).map
          (fun p => (p, bucketOf (b ++ (m.map Prod.snd).flatten) p))
        = m.map (fun pb =>
            (pb.1, bucketOf (b ++ (m.map Prod.snd).flatten) pb.1)) := by
          rw [List.map_map]
          rfl
      _ = m.map (fun pb => (pb.1, pb.2)) :=
          List.map_congr_left (fun pb hpb => by rw [hbucket pb hpb])
      _ = m := by simp
  rw [hbase, hmap]

theorem sep_keys_nodup (cls : List String) :
    ((separateClasses cls).2.map Prod.fst).Nodup := by
  rw [separateClasses_eq]
  simp only
  rw [sepMap_keys]
  exact firstOccurrences_nodup _

theorem mem_base_mem (cls : List String) (t : String)
    (ht : t ∈ (separateClasses cls).1) : t ∈ cls := by
  rw [separateClasses_eq] at ht
  exact (List.mem_filter.mp ht).1

theorem mem_bucket_mem (cls : List String) (pb : String × List String)
    (hpb : pb ∈ (separateClasses cls).2) (t : String) (ht : t ∈ pb.2) :
    t ∈ cls := by
  rw [separateClasses_eq] at hpb
  simp only [sepMap, List.mem_map] at hpb
  obtain ⟨p, hp, rfl⟩ := hpb
  simp only [bucketOf] at ht
  exact (List.mem_filter.mp ht).1

/-- Re-extracting the tokens of the emitted call expression yields the base
tokens followed by all bucket tokens, and reclassifying them restores the
original partition, provided the original tokens are non-empty and
whitespace-free. -/
theorem reparse_tokens (cls : List String)
    (hclean : ∀ t ∈ cls, t ≠ "")
    (hws : ∀ t ∈ cls, ∀ c ∈ t.data, isWs c = false) :
    extractTokens (reparse (groupTexts (separateClasses cls).1
        (separateClasses cls).2)) =
      some ((separateClasses cls).1 ++
        (((separateClasses cls).2.map Prod.snd).flatten)) := by
  rw [extractTokens_reparse]
  congr 1
  rw [groupTexts_of_ne_nil _ _ (separateClasses_bucket_ne_nil cls),
    List.map_append, List.flatten_append]
  have hbase : ((if (separateClasses cls).1.length > 0
      then [spaceJoin (separateClasses cls).1] else []).map jsSplitWs).flatten =
      (separateClasses cls).1 := by
    by_cases hb : (separateClasses cls).1.length > 0
    · rw [if_pos hb]
      simp only [List.map_cons, List.map_nil, List.flatten_cons,
        List.flatten_nil, List.append_nil]
      exact jsSplitWs_spaceJoin _ (by
          intro hnil
          rw [hnil] at hb
          simp at hb)
        (fun t ht => ⟨hclean t (mem_base_mem cls t ht),
          hws t (mem_base_mem cls t ht)⟩)
    · rw [if_neg hb]
      simp only [List.map_nil, List.flatten_nil]
      have : (separateClasses cls).1 = [] := by
        rcases h : (separateClasses cls).1 with _ | ⟨x, xs⟩
        · rfl
        · rw [h] at hb
          simp at hb
      rw [this]
  have hbuckets : (((separateClasses cls).2.map
      (fun pb => spaceJoin pb.2)).map jsSplitWs).flatten =
      (((separateClasses cls).2.map Prod.snd).flatten) := by
    rw [List.map_map]
    congr 1
    refine List.map_congr_left ?_
    intro pb hpb
    simp only [Function.comp_apply]
    exact jsSplitWs_spaceJoin pb.2 (separateClasses_bucket_ne_nil cls pb hpb)
      (fun t ht => ⟨hclean t (mem_bucket_mem cls pb hpb t ht),
        hws t (mem_bucket_mem cls pb hpb t ht)⟩)
  rw [hbase, hbuckets]

/-- Reclassifying the re-extracted tokens restores the original partition. -/
theorem reparse_reclassify (cls : List String) :
    separateClasses ((separateClasses cls).1 ++
      (((separateClasses cls).2.map Prod.snd).flatten)) =
      ((separateClasses cls).1, (separateClasses cls).2) :=
  separateClasses_reassemble _ _
    (separateClasses_base_tokens cls)
    (separateClasses_bucket_tokens cls)
    (separateClasses_bucket_ne_nil cls)
    (sep_keys_nodup cls)

/-- A value the rewriter leaves alone yields no replacement text either. -/
theorem rewriteValue_none_iff (v : AttrValue) :
    rewriteValue v = none ↔ rewriteGroups v = none := by
  rw [rewriteValue, rewriteGroups]
  cases hv : extractTokens v with
  | none => simp
  | some cls =>
    simp only [Option.some_bind]
    show rewriteTokens cls = none ↔ _
    rw [rewriteTokens]
    rcases hsep : separateClasses cls with ⟨b, m⟩
    by_cases hm : m.isEmpty <;> simp [hm]

/-- Node-level idempotence: under clean tokens, rewriting the re-parsed
emitted call expression reproduces the same groups, hence byte-identical
replacement text. -/
theorem rewriteGroups_reparse (v : AttrValue) (gs : List String)
    (hclean : ∀ t ∈ (extractTokens v).getD [], t ≠ "")
    (hv : rewriteGroups v = some gs) :
    rewriteGroups (reparse gs) = some gs ∧
      rewriteValue (reparse gs) = rewriteValue v := by
  rw [rewriteGroups] at hv
  cases hext : extractTokens v with
  | none => rw [hext] at hv; simp at hv
  | some cls =>
    rw [hext] at hv
    simp only [Option.some_bind] at hv
    have hclean' : ∀ t ∈ cls, t ≠ "" := by
      intro t ht
      refine hclean t ?_
      rw [hext]
      simpa using ht
    have hws := extractTokens_wsFree v cls hext
    rcases hsep : separateClasses cls with ⟨b, m⟩
    rw [hsep] at hv
    simp only at hv
    by_cases hm : m.isEmpty
    · rw [if_pos hm] at hv
      simp at hv
    · rw [if_neg hm] at hv
      obtain rfl : groupTexts b m = gs := by simpa using hv
      have htok := reparse_tokens cls hclean' hws
      rw [hsep] at htok
      have hre := reparse_reclassify cls
      rw [hsep] at hre
      simp only at htok hre
      constructor
      · rw [rewriteGroups, htok]
        simp only [Option.some_bind]
        rw [hre]
        simp only [if_neg hm]
      · rw [rewriteValue, rewriteValue, htok, hext]
        simp only [Option.some_bind]
        rw [rewriteTokens, rewriteTokens, hre, hsep]

/-- Document-level idempotence under clean tokens: the second pass leaves the
document unchanged and emits exactly the same replacement texts as the
first. -/
theorem stepDoc_stable (doc : List AttrValue)
    (hclean : ∀ v ∈ doc, ∀ t ∈ (extractTokens v).getD [], t ≠ "") :
    stepDoc (stepDoc doc) = stepDoc doc ∧
      docEdits (stepDoc doc) = docEdits doc := by
  constructor
  · rw [stepDoc, stepDoc, List.map_map]
    refine List.map_congr_left ?_
    intro v hv
    simp only [Function.comp_apply]
    cases hg : rewriteGroups v with
    | none =>
      show (match rewriteGroups v with
            | some gs' => reparse gs'
            | none => v) = v
      rw [hg]
    | some gs =>
      have hr := (rewriteGroups_reparse v gs (hclean v hv) hg).1
      show (match rewriteGroups (reparse gs) with
            | some gs' => reparse gs'
            | none => reparse gs) = reparse gs
      rw [hr]
  · rw [docEdits, docEdits, stepDoc, List.filterMap_map]
    refine List.filterMap_congr ?_
    intro v hv
    simp only [Function.comp_apply]
    cases hg : rewriteGroups v with
    | none =>
      show rewriteValue v = rewriteValue v
      rfl
    | some gs =>
      have hr := (rewriteGroups_reparse v gs (hclean v hv) hg).2
      show rewriteValue (reparse gs) = rewriteValue v
      exact hr

/-- Shift an edit's offsets by a fixed base offset. -/
def shiftEdit (k : Nat) : Edit → Edit
  | .replace s e t => .replace (s + k) (e + k) t
  | .insert p t => .insert (p + k) t

/-- Start offset of an edit's span (an insertion is a zero-width span). -/
def editStart : Edit → Nat
  | .replace s _ _ => s
  | .insert p _ => p

/-- End offset of an edit's span. -/
def editStop : Edit → Nat
  | .replace _ e _ => e
  | .insert p _ => p

/-- Two edits' spans do not overlap. -/
def editsDisjoint (e₁ e₂ : Edit) : Prop :=
  editStop e₁ ≤ editStart e₂ ∨ editStop e₂ ≤ editStart e₁

instance (e₁ e₂ : Edit) : Decidable (editsDisjoint e₁ e₂) :=
  inferInstanceAs (Decidable (_ ∨ _))

/-- C2: for every input token list, the classifier's output is a complete,
disjoint, order-preserving partition of the input: the base list is the
in-order filter of the unprefixed tokens, the map carries, for each prefix in
order of first occurrence, the in-order filter of its tokens, and
concatenating the base list with all buckets reproduces the input with
multiplicity. -/
theorem classifier_partition (cls : List String) :
    (separateClasses cls).1 = cls.filter (fun c => (findPrefix c).isNone) ∧
    (separateClasses cls).2 =
      (firstOccurrences (cls.filterMap findPrefix)).map
        (fun p => (p, cls.filter (fun c => findPrefix c == some p))) ∧
    ((separateClasses cls).1 ++
      (((separateClasses cls).2.map Prod.snd).flatten)).Perm cls := by
  refine ⟨?_, ?_, separateClasses_perm cls⟩
  · rw [separateClasses_eq]
    rfl
  · rw [separateClasses_eq]
    rfl

/-- C4: for every input token list, the prefix buckets appear in the
classifier's map in the order in which each prefix's first member was
encountered in the input sequence. -/
theorem classifier_key_order (cls : List String) :
    (separateClasses cls).2.map Prod.fst =
      firstOccurrences (cls.filterMap findPrefix) := by
  rw [separateClasses_eq]
  exact sepMap_keys cls

/-- C3: for every candidate value whose classification yields a non-empty
prefix-bucket map, the replacement text is a `twJoin` invocation whose
arguments are, in order, one quoted string of the base tokens joined with
single spaces — present iff the base list is non-empty — followed by one
quoted string per prefix bucket (its tokens joined with single spaces) in
the map's insertion order. -/
theorem rewriter_argument_order (v : AttrValue) (cls : List String)
    (hext : extractTokens v = some cls)
    (hm : (separateClasses cls).2 ≠ []) :
    rewriteValue v = some (renderParts
      ((if (separateClasses cls).1 = [] then []
        else [quoteStr (spaceJoin (separateClasses cls).1)]) ++
        (separateClasses cls).2.map (fun pb => quoteStr (spaceJoin pb.2)))) := by
  have hbucket := separateClasses_bucket_ne_nil cls
  rw [rewriteValue, hext, Option.some_bind, rewriteTokens]
  rcases hsep : separateClasses cls with ⟨b, m⟩
  rw [hsep] at hm hbucket
  simp only at hm hbucket ⊢
  rw [if_neg (by simpa [List.isEmpty_iff] using hm)]
  congr 1
  rw [classParts_eq_quote, groupTexts_of_ne_nil _ _ hbucket, List.map_append,
    List.map_map]
  by_cases hb : b = []
  · subst hb
    simp
    rfl
  · rw [if_neg hb, if_pos (List.length_pos.mpr hb)]
    simp only [List.map_cons, List.map_nil]
    rfl

/-- C3 witness: the spec's example value `"p-4 sm:p-8 text-center"` produces
the arguments `"p-4 text-center"` then `"sm:p-8"`. -/
theorem rewriter_argument_order_witness :
    rewriteValue (AttrValue.strLit "p-4 sm:p-8 text-center") =
      some (renderParts
        ((if (separateClasses ["p-4", "sm:p-8", "text-center"]).1 = [] then []
          else [quoteStr (spaceJoin
            (separateClasses ["p-4", "sm:p-8", "text-center"]).1)]) ++
          (separateClasses ["p-4", "sm:p-8", "text-center"]).2.map
            (fun pb => quoteStr (spaceJoin pb.2)))) ∧
    rewriteValue (AttrValue.strLit "p-4 sm:p-8 text-center") =
      some "\x7btwJoin(\n        \"p-4 text-center\",\n        \"sm:p-8\"\n      )\x7d" :=
  ⟨rewriter_argument_order (AttrValue.strLit "p-4 sm:p-8 text-center")
    ["p-4", "sm:p-8", "text-center"] rfl (by decide), by decide⟩

/-- C10: every replacement the rewriter emits is a rendering of a non-empty
list of quoted string arguments: the prefix-bucket map is non-empty, every
bucket is non-empty, and a zero-argument call is never emitted. -/
theorem replacement_has_argument (cls : List String) (txt : String)
    (h : rewriteTokens cls = some txt) :
    (separateClasses cls).2 ≠ [] ∧
    (∀ pb ∈ (separateClasses cls).2, pb.2 ≠ []) ∧
    ∃ parts, parts ≠ [] ∧ txt = renderParts parts ∧
      ∀ part ∈ parts, ∃ s, part = quoteStr s := by
  have hbucket := separateClasses_bucket_ne_nil cls
  rw [rewriteTokens] at h
  rcases hsep : separateClasses cls with ⟨b, m⟩
  rw [hsep] at h hbucket
  simp only at h hbucket ⊢
  by_cases hm : m.isEmpty
  · rw [if_pos hm] at h
    simp at h
  · rw [if_neg hm] at h
    have hmne : m ≠ [] := by simpa [List.isEmpty_iff] using hm
    refine ⟨hmne, hbucket, classParts b m, ?_, ?_, ?_⟩
    · rw [classParts_eq_quote, groupTexts_of_ne_nil _ _ hbucket]
      intro hnil
      rcases List.append_eq_nil.mp (List.map_eq_nil_iff.mp hnil) with ⟨_, h2⟩
      exact hmne (List.map_eq_nil_iff.mp h2)
    · exact (Option.some.injEq _ _ ▸ h).symm
    · rw [classParts_eq_quote]
      intro part hpart
      obtain ⟨s, _, rfl⟩ := List.mem_map.mp hpart
      exact ⟨s, rfl⟩

/-- C10 witness: the single-token list `["sm:p-4"]` produces a replacement
with one quoted argument. -/
theorem replacement_has_argument_witness :
    (separateClasses ["sm:p-4"]).2 ≠ [] ∧
    (∀ pb ∈ (separateClasses ["sm:p-4"]).2, pb.2 ≠ []) ∧
    ∃ parts, parts ≠ [] ∧
      "\x7btwJoin(\n        \"sm:p-4\"\n      )\x7d" = renderParts parts ∧
      ∀ part ∈ parts, ∃ s, part = quoteStr s :=
  replacement_has_argument ["sm:p-4"]
    "\x7btwJoin(\n        \"sm:p-4\"\n      )\x7d" rfl

/-- C5 counterexample: a leading-whitespace value hands the classifier an
empty token, and an empty value hands it the singleton empty token —
refuting the claim that the token list contains only non-empty tokens. -/
theorem split_empty_token_counterexample :
    extractTokens (AttrValue.strLit " a") = some ["", "a"] ∧
    ¬(∀ t ∈ (extractTokens (AttrValue.strLit " a")).getD [], t ≠ "") ∧
    extractTokens (AttrValue.strLit "") = some [""] := by
  refine ⟨rfl, ?_, rfl⟩
  decide

/-- C5 amended: tokens are whitespace-free, and they are all non-empty
provided the value is non-empty and neither starts nor ends with a
whitespace character; leading or trailing whitespace (or an empty value)
produces empty tokens. -/
theorem split_tokens_spec (s : String) :
    (∀ t ∈ jsSplitWs s, ∀ c ∈ t.data, isWs c = false) ∧
    (s ≠ "" → isWs (s.data.headD 'a') = false →
      isWs (s.data.getLastD 'a') = false →
      ∀ t ∈ jsSplitWs s, t ≠ "") := by
  refine ⟨jsSplitWs_wsFree s, ?_⟩
  intro hne hhead hlast t ht
  have hdata : s.data ≠ [] := by
    intro hd
    exact hne (String.ext hd)
  have hhead' : ∀ c, s.data.head? = some c → isWs c = false := by
    intro c hc
    rcases hd : s.data with _ | ⟨x, xs⟩
    · exact absurd hd hdata
    · rw [hd] at hc
      simp at hc
      subst hc
      rw [hd] at hhead
      simpa using hhead
  have hlast' : ∀ c, s.data.getLast? = some c → isWs c = false := by
    intro c hc
    rw [List.getLastD_eq_getLast?, hc] at hlast
    simpa using hlast
  have hall := (splitWsChars_chunks s.data).2 hdata hhead' hlast'
  rw [jsSplitWs] at ht
  obtain ⟨cs, hcs, rfl⟩ := List.mem_map.mp ht
  intro hmk
  exact hall cs hcs (congrArg String.data hmk)

/-- C5 witness: the clean value `"a b"` splits into non-empty
whitespace-free tokens. -/
theorem split_tokens_spec_witness :
    (∀ t ∈ jsSplitWs "a b", ∀ c ∈ t.data, isWs c = false) ∧
    (∀ t ∈ jsSplitWs "a b", t ≠ "") :=
  ⟨(split_tokens_spec "a b").1,
    (split_tokens_spec "a b").2 (by decide) (by decide) (by decide)⟩

/-- C1 counterexample: on the document with one `className="p-4 sm:p-8"`
attribute the first pass emits an edit, and the second pass — run on the
rewritten document — emits an edit again (a byte-identical replacement),
so the second pass's EditBatch is not empty. -/
theorem pipeline_second_pass_not_empty :
    docEdits [AttrValue.strLit "p-4 sm:p-8"] ≠ [] ∧
    docEdits (stepDoc [AttrValue.strLit "p-4 sm:p-8"]) ≠ [] := by
  decide

/-- C1 amended: when every extracted token is non-empty, running the
pipeline twice yields the same document as running it once, and the second
pass emits exactly the same (byte-identical) replacement texts as the
first — a non-empty batch, not an empty one. -/
theorem pipeline_idempotent_clean (doc : List AttrValue)
    (hclean : ∀ v ∈ doc, ∀ t ∈ (extractTokens v).getD [], t ≠ "") :
    stepDoc (stepDoc doc) = stepDoc doc ∧
      docEdits (stepDoc doc) = docEdits doc :=
  stepDoc_stable doc hclean

/-- C1 witness: the clean one-attribute document is stable under a second
pass. -/
theorem pipeline_idempotent_clean_witness :
    stepDoc (stepDoc [AttrValue.strLit "p-4 sm:p-8"]) =
        stepDoc [AttrValue.strLit "p-4 sm:p-8"] ∧
      docEdits (stepDoc [AttrValue.strLit "p-4 sm:p-8"]) =
        docEdits [AttrValue.strLit "p-4 sm:p-8"] :=
  pipeline_idempotent_clean [AttrValue.strLit "p-4 sm:p-8"] (by decide)

/-- C6: an import-insertion edit is appended iff the batch is non-empty and
the exact import line is not a substring of the full original document
text; when appended it is a single insertion at offset 0 of the import line
followed by a newline, after all replacement edits. -/
theorem import_insertion_iff (docText : String) (batch : List Edit) :
    collectFinal docText batch =
      batch ++
        (if batch ≠ [] ∧ strIncludes docText importStatement = false
          then [Edit.insert 0 (importStatement ++ "\n")] else []) := by
  rw [collectFinal, ensureImportStatement]
  rcases batch with _ | ⟨e, es⟩
  · simp
  · by_cases hs : strIncludes docText importStatement <;> simp [hs]

/-- C7: the edits of a scanned sub-range are the whole-document edits with
the selection's start offset added to both span ends; scanning the whole
document adds offset 0. -/
theorem edit_offset_adjustment (nodes : List Node)
    (sel : Option (Nat × Nat)) :
    processBatch nodes (scanOffset sel) =
      (processBatch nodes 0).map (shiftEdit (scanOffset sel)) ∧
    scanOffset none = 0 := by
  refine ⟨?_, rfl⟩
  rw [processBatch, processBatch]
  induction nodes with
  | nil => rfl
  | cons n ns ih =>
    rw [List.filterMap_cons, List.filterMap_cons]
    cases hv : rewriteValue n.value with
    | none => simpa using ih
    | some txt =>
      simp only [Option.map_some', List.map_cons]
      rw [ih]
      simp [shiftEdit]

/-- C8: in a batch produced by one pass over candidates whose value spans
are pairwise non-overlapping (attributes cannot nest inside each other's
value span), the replacement spans are pairwise non-overlapping, and each
candidate contributes at most one edit. -/
theorem edit_spans_disjoint (nodes : List Node) (offset : Nat)
    (h : nodes.Pairwise (fun a b => a.stop ≤ b.start ∨ b.stop ≤ a.start)) :
    (processBatch nodes offset).Pairwise editsDisjoint ∧
    (processBatch nodes offset).length ≤ nodes.length := by
  constructor
  · rw [processBatch]
    refine List.Pairwise.filterMap _ ?_ h
    intro a a' hr e he e' he'
    cases hva : rewriteValue a.value with
    | none => rw [hva] at he; simp at he
    | some ta =>
      cases hva' : rewriteValue a'.value with
      | none => rw [hva'] at he'; simp at he'
      | some ta' =>
        rw [hva] at he
        rw [hva'] at he'
        simp only [Option.map_some', Option.mem_def, Option.some.injEq] at he he'
        subst he
        subst he'
        rcases hr with hle | hle
        · exact Or.inl (by simp [editStop, editStart]; omega)
        · exact Or.inr (by simp [editStop, editStart]; omega)
  · exact List.length_filterMap_le _ _

/-- C8 witness: two candidates with disjoint value spans produce a batch
with pairwise disjoint spans. -/
theorem edit_spans_disjoint_witness :
    (processBatch [⟨0, 5, AttrValue.strLit "p-4 sm:p-8"⟩,
        ⟨10, 15, AttrValue.strLit "a lg:b"⟩] 3).Pairwise editsDisjoint ∧
    (processBatch [⟨0, 5, AttrValue.strLit "p-4 sm:p-8"⟩,
        ⟨10, 15, AttrValue.strLit "a lg:b"⟩] 3).length ≤ 2 :=
  edit_spans_disjoint
    [⟨0, 5, AttrValue.strLit "p-4 sm:p-8"⟩, ⟨10, 15, AttrValue.strLit "a lg:b"⟩]
    3 (by decide)

/-- C9: when parsing fails, the command reports exactly one error message
consisting of the fixed prefix and the underlying cause, and applies no
edit batch. -/
theorem error_abort_report (parseResult : Except String (List Node))
    (sel : Option (Nat × Nat)) (docText : String) (e : String)
    (h : parseResult = .error e) :
    runCommand parseResult sel docText = .reported (errorPrefix ++ e) ∧
    ∀ edits, runCommand parseResult sel docText ≠ .applied edits := by
  subst h
  exact ⟨rfl, fun edits => by simp [runCommand]⟩

/-- C9 witness: a concrete parse failure is reported with its cause and
nothing is applied. -/
theorem error_abort_report_witness :
    runCommand (.error "boom") none "" = .reported (errorPrefix ++ "boom") ∧
    ∀ edits, runCommand (Except.error "boom") none "" ≠ .applied edits :=
  error_abort_report (.error "boom") none "" "boom" rfl

end TailwindMerger




